import Mathlib

/-!
Verification of the `profane-detect` repository.

The repository ships two engine variants that the claims reference:

* the primary engine in `src/src/index.ts` (class `ProfaneDetect` with
  `initializeCaches`, `normalize`, `detect`, `checkWord`, `addToWhitelist`),
  embedded below in namespace `ProfaneDetect`;
* a secondary engine variant carried in `src/src/types.ts` (a `ProfaneDetect`
  class with `initializeNormalizedCaches`, a fuzzy `detect` loop, `fuzzyMatch`
  and `calculateEditDistance`), embedded in namespace `ProfaneDetect.Legacy`.

Strings are modelled as `List Char` (JavaScript iterates code points via
`Array.from`).  JavaScript platform primitives used by the source
(`String.prototype.normalize("NFD")`, `toLowerCase`, the regex classes) are
modelled character-wise on the character set exercised here: identity on
ASCII plus a small table of precomposed Latin letters.
-/

namespace ProfaneDetect

/-- Characters matched by the regex range `A-Z`. -/
def isUpperAscii (c : Char) : Bool := 65 ≤ c.toNat && c.toNat ≤ 90

/-- Characters matched by the regex range `a-z`. -/
def isLowerAscii (c : Char) : Bool := 97 ≤ c.toNat && c.toNat ≤ 122

/-- The character class `[a-zA-Z]` used by `normalize` (letter filter) and by
`detect` (the `hasSep` test and the `stripped` computation). -/
def isAsciiLetter (c : Char) : Bool := isUpperAscii c || isLowerAscii c

/-- Combining diacritical marks, the regex class `[̀-ͯ]`. -/
def isCombining (c : Char) : Bool := 0x300 ≤ c.toNat && c.toNat ≤ 0x36F

/-- Invisible characters, the regex class `[​-‍﻿]`. -/
def isZeroWidth (c : Char) : Bool :=
  (0x200B ≤ c.toNat && c.toNat ≤ 0x200D) || c.toNat == 0xFEFF

/-- The JavaScript regex class `\s` (used by `text.split(/\s+/)`). -/
def isJsWhitespace (c : Char) : Bool :=
  (9 ≤ c.toNat && c.toNat ≤ 13) || c.toNat == 32 || c.toNat == 0xA0 ||
  c.toNat == 0x1680 || (0x2000 ≤ c.toNat && c.toNat ≤ 0x200A) ||
  c.toNat == 0x2028 || c.toNat == 0x2029 || c.toNat == 0x202F ||
  c.toNat == 0x205F || c.toNat == 0x3000 || c.toNat == 0xFEFF

/-- Lookup in a character table, modelling `this.homoglyphMapping[ch]`
(a JavaScript record, keys unique). -/
def lookup? (m : List (Char × Char)) (c : Char) : Option Char :=
  (m.find? (fun p => p.1 == c)).map (fun p => p.2)

/-- The ASCII uppercase-to-lowercase table of `String.prototype.toLowerCase`. -/
def asciiLowerPairs : List (Char × Char) :=
  [('A', 'a'), ('B', 'b'), ('C', 'c'), ('D', 'd'), ('E', 'e'), ('F', 'f'),
   ('G', 'g'), ('H', 'h'), ('I', 'i'), ('J', 'j'), ('K', 'k'), ('L', 'l'),
   ('M', 'm'), ('N', 'n'), ('O', 'o'), ('P', 'p'), ('Q', 'q'), ('R', 'r'),
   ('S', 's'), ('T', 't'), ('U', 'u'), ('V', 'v'), ('W', 'w'), ('X', 'x'),
   ('Y', 'y'), ('Z', 'z')]

/-- ASCII lowercase conversion for `String.prototype.toLowerCase`; only
invoked on characters satisfying `isUpperAscii`, where the table is total, so
the fallback value is unreachable. -/
def asciiLowerOf (c : Char) : Char := (lookup? asciiLowerPairs c).getD 'a'

/-- Character-wise model of JavaScript `toLowerCase` on the character set used
here: ASCII letters plus the accented letters of the `nfdChar` table. -/
def jsToLower (c : Char) : Char :=
  if isUpperAscii c then asciiLowerOf c
  else if c = 'É' then 'é' else if c = 'Ñ' then 'ñ' else c

/-- Character-wise model of `String.prototype.normalize("NFD")`: canonical
decomposition.  Identity outside a small table of precomposed Latin letters
(ASCII characters are NFD-invariant per the Unicode standard). -/
def nfdChar (c : Char) : List Char :=
  if c = 'é' then ['e', '́'] else if c = 'É' then ['E', '́']
  else if c = 'ñ' then ['n', '̃'] else if c = 'Ñ' then ['N', '̃']
  else if c = 'ü' then ['u', '̈'] else [c]

/-- The module level leetspeak table `digitMap` of `src/src/index.ts`. -/
def digitMap (c : Char) : Option Char :=
  if c = '0' then some 'o' else if c = '1' then some 'i'
  else if c = '3' then some 'e' else if c = '4' then some 'a'
  else if c = '5' then some 's' else if c = '7' then some 't' else none

/-- Lookup in a string-keyed map, modelling `map.get(k)` / `obj[k]`. -/
def getKey {α : Type} (m : List (List Char × α)) (k : List Char) : Option α :=
  (m.find? (fun p => p.1 == k)).map (fun p => p.2)

/-- Update of a string-keyed map, modelling `map.set(k, v)` / `obj[k] = v`
(overwrites the value of an existing key, else appends). -/
def setKey {α : Type} : List (List Char × α) → List Char → α → List (List Char × α)
  | [], k, v => [(k, v)]
  | p :: rest, k, v => if p.1 == k then (p.1, v) :: rest else p :: setKey rest k v

/-- Update of a string set, modelling `set.add(k)` (insertion order kept). -/
def setInsert (s : List (List Char)) (k : List Char) : List (List Char) :=
  if s.contains k then s else s ++ [k]

/-- The `WordStatus` status strings of `src/src/types.ts`. -/
inductive Status where
  | safe
  | banned
  | pass
deriving DecidableEq, Repr

/-- The `WordStatus` record of `src/src/types.ts`. -/
structure WordStatus where
  status : Status
  reason : String
  originalWord : Option (List Char) := none
deriving DecidableEq, Repr

/-- Resolved constructor configuration of `ProfaneDetect` (fields after the
defaulting in the constructor, `src/src/index.ts` lines 61-70).  The default
data lists loaded from `raw_data` at module scope are carried as the
`defaultWhitelist` field and the `defaultBannedWords`/`defaultHomoglyphMapping`
constants below. -/
structure Config where
  bannedWords : List (List Char)
  homoglyphMapping : List (Char × Char)
  caseSensitive : Bool
  useFastLookup : Bool
  useReversible : Bool
  safeWords : List (List Char)
  defaultWhitelist : List (List Char)
deriving DecidableEq, Repr

/-- Modelled from the spec: the default banned list `raw_data/languages/en.json`
is not under `src/`; the spec's examples use "fuck" (and the test file further
banned words) as entries of it. -/
def defaultBannedWords : List (List Char) := ["fuck".data, "shit".data, "nigga".data]

/-- Modelled from the spec: the default whitelist `raw_data/whitelist.json` is
not under `src/`; the spec's examples treat "assessment" as whitelisted. -/
def defaultWhitelistWords : List (List Char) := ["assessment".data, "class".data]

/-- Modelled from the spec: the homoglyph table `raw_data/chars.txt` is not
under `src/`; the spec describes grouped lines of visually equivalent
characters mapped to a canonical base (e.g. fullwidth letters to ASCII). -/
def defaultHomoglyphMapping : List (Char × Char) :=
  [('Ｕ', 'u'), ('ｕ', 'u'), ('υ', 'u'), ('а', 'a')]

/-- The raw constructor options object (`ProfaneDetectOptions`). -/
structure Options where
  bannedWords : Option (List (List Char)) := none
  homoglyphMapping : Option (List (Char × Char)) := none
  safeWords : Option (List (List Char)) := none
  caseSensitive : Option Bool := none
  useFastLookup : Option Bool := none
  useReversible : Option Bool := none

/-- The defaulting performed by the constructor (`src/src/index.ts` lines
62-68): `||` fallbacks for the data fields, `!== false` for the two flags. -/
def resolveOptions (o : Options) : Config where
  bannedWords := o.bannedWords.getD defaultBannedWords
  homoglyphMapping := o.homoglyphMapping.getD defaultHomoglyphMapping
  caseSensitive := o.caseSensitive.getD false
  useFastLookup := !(o.useFastLookup == some false)
  useReversible := !(o.useReversible == some false)
  safeWords := o.safeWords.getD []
  defaultWhitelist := defaultWhitelistWords

/-- The loop body of `normalize` (lines 117-122 of `src/src/index.ts`): map a
character through the homoglyph table then the digit table, and keep it only
when the result is an ASCII letter. -/
def normChar (hm : List (Char × Char)) (ch : Char) : Option Char :=
  let c1 := (lookup? hm ch).getD ch
  let c2 := (digitMap c1).getD c1
  if isAsciiLetter c2 then some c2 else none

/-- `normalize` of `src/src/index.ts` (lines 112-124): lowercase unless case
sensitive, NFD, strip combining marks, strip invisible characters, then map
each character through the homoglyph table and the digit table and keep only
ASCII letters. -/
def normalize (cfg : Config) (text : List Char) : List Char :=
  let s1 := if cfg.caseSensitive then text else text.map jsToLower
  let s2 := (s1.flatMap nfdChar).filter (fun c => !isCombining c)
  let s3 := s2.filter (fun c => !isZeroWidth c)
  s3.filterMap (normChar cfg.homoglyphMapping)

/-- Splitting on `/\s+/` as JavaScript `String.prototype.split` does: a run of
whitespace is one separator; a leading or trailing run yields an empty piece;
the empty string yields one empty piece. -/
def jsSplitAux : List Char → Bool → List Char → List (List Char)
  | [], _, acc => [acc.reverse]
  | c :: rest, inRun, acc =>
    if isJsWhitespace c then
      if inRun then jsSplitAux rest true []
      else acc.reverse :: jsSplitAux rest true []
    else jsSplitAux rest false (c :: acc)

/-- `text.split(/\s+/)`. -/
def jsSplitWS (s : List Char) : List (List Char) := jsSplitAux s false []

/-- `text.split(/\s+/).filter(Boolean)` (`src/src/index.ts` line 136). -/
def rawTokensOf (s : List Char) : List (List Char) :=
  (jsSplitWS s).filter (fun t => !t.isEmpty)

/-- The mutable state of a `ProfaneDetect` instance. -/
structure Detector where
  cfg : Config
  fastLookup : List (List Char × WordStatus)
  userWhitelist : List (List Char)
  normalizedBannedMap : List (List Char × List Char)
  normalizedWhitelist : List (List Char)
deriving DecidableEq, Repr

/-- Constructor plus `initializeCaches` (`src/src/index.ts` lines 61-110):
normalize the banned words into `normalizedBannedMap`, the default whitelist
into `normalizedWhitelist`, seed `fastLookup` (whitelist first, banned second)
when enabled, then apply the user safe words. -/
def mkDetector (cfg : Config) : Detector :=
  let bmap := cfg.bannedWords.foldl (fun m w => setKey m (normalize cfg w) w) []
  let nwl := cfg.defaultWhitelist.foldl (fun s w => setInsert s (normalize cfg w)) []
  let fl0 : List (List Char × WordStatus) :=
    if cfg.useFastLookup then
      cfg.defaultWhitelist.foldl
        (fun m w => setKey m (normalize cfg w) ⟨.safe, "default whitelist", some w⟩) []
    else []
  let fl1 :=
    if cfg.useFastLookup then
      cfg.bannedWords.foldl
        (fun m w => setKey m (normalize cfg w) ⟨.banned, "banned word", some w⟩) fl0
    else fl0
  let uwfl := cfg.safeWords.foldl
    (fun (st : List (List Char) × List (List Char × WordStatus)) w =>
      let n := normalize cfg w
      (setInsert st.1 n,
       if cfg.useFastLookup then setKey st.2 n ⟨.pass, "user whitelist", some w⟩ else st.2))
    ([], fl1)
  ⟨cfg, uwfl.2, uwfl.1, bmap, nwl⟩

/-- The detection metrics record. -/
structure Metrics where
  exactMatches : Nat
  fuzzyMatches : Nat
  totalChecked : Nat
  whitelistedSkips : Nat
  lookupHits : Option Nat
deriving DecidableEq, Repr

/-- The `DetectionResult` record. -/
structure DetectionResult where
  found : Bool
  «matches» : List (List Char)
  normalized : List Char
  metrics : Metrics
deriving DecidableEq, Repr

/-- The mutable locals of one `detect` call. -/
structure LoopSt where
  detected : List (List Char)
  whitelistedSkips : Nat
  lookupHits : Nat
  fastLookup : List (List Char × WordStatus)
deriving DecidableEq, Repr

/-- The body of the token loop of `detect` (`src/src/index.ts` lines 138-207):
fast-lookup cache, whitelist, obfuscated exact match (guarded by `hasSep`),
reversible match, fallback safe memoization. -/
def processToken (d : Detector) (st : LoopSt) (raw : List Char) : LoopSt :=
  let normRaw := normalize d.cfg raw
  let st1 := if d.cfg.useFastLookup then { st with lookupHits := st.lookupHits + 1 } else st
  match (if d.cfg.useFastLookup then getKey st1.fastLookup normRaw else none) with
  | some cached =>
    if cached.status = .banned then
      { st1 with detected := setInsert st1.detected (cached.originalWord.getD []) }
    else
      { st1 with whitelistedSkips := st1.whitelistedSkips + 1 }
  | none =>
    if d.userWhitelist.contains normRaw || d.normalizedWhitelist.contains normRaw then
      let isUser := d.userWhitelist.contains normRaw
      let st2 := { st1 with whitelistedSkips := st1.whitelistedSkips + 1 }
      if d.cfg.useFastLookup then
        { st2 with fastLookup := (setKey st2.fastLookup normRaw
            ⟨if isUser then .pass else .safe,
             if isUser then "user whitelist" else "default whitelist", some raw⟩) }
      else st2
    else
      let hasSep := raw.any (fun c => !isAsciiLetter c)
      let stripped := raw.filter isAsciiLetter
      let normStr := normalize d.cfg stripped
      if hasSep && (getKey d.normalizedBannedMap normStr).isSome then
        let orig := (getKey d.normalizedBannedMap normStr).getD []
        let st2 := { st1 with detected := setInsert st1.detected orig }
        if d.cfg.useFastLookup then
          { st2 with fastLookup := (setKey st2.fastLookup normRaw
              ⟨.banned, "obfuscated exact match", some orig⟩) }
        else st2
      else if d.cfg.useReversible && (getKey d.normalizedBannedMap normStr.reverse).isSome then
        let orig := (getKey d.normalizedBannedMap normStr.reverse).getD []
        let st2 := { st1 with detected := setInsert st1.detected orig }
        if d.cfg.useFastLookup then
          { st2 with fastLookup := (setKey st2.fastLookup normRaw
              ⟨.banned, "reversible match", some orig⟩) }
        else st2
      else if d.cfg.useFastLookup && (getKey st1.fastLookup normRaw).isNone then
        { st1 with fastLookup := setKey st1.fastLookup normRaw ⟨.safe, "passed checks", none⟩ }
      else st1

/-- `detect` of `src/src/index.ts` (lines 126-221).  Returns the result and
the instance with its fast-lookup cache as mutated by the call. -/
def detect (d : Detector) (text : List Char) : DetectionResult × Detector :=
  let rawTokens := rawTokensOf text
  let st := rawTokens.foldl (processToken d) ⟨[], 0, 0, d.fastLookup⟩
  (⟨!st.detected.isEmpty, st.detected, normalize d.cfg text,
    ⟨st.detected.length, 0, rawTokens.length, st.whitelistedSkips,
     if d.cfg.useFastLookup then some st.lookupHits else none⟩⟩,
   { d with fastLookup := st.fastLookup })

/-- `checkWord` of `src/src/index.ts` (lines 223-231): throws when fast lookup
is disabled, else user whitelist first, then the cache, defaulting to safe. -/
def checkWord (d : Detector) (word : List Char) : Except String WordStatus :=
  if !d.cfg.useFastLookup then .error "Fast lookup is disabled."
  else
    let n := normalize d.cfg word
    if d.userWhitelist.contains n then .ok ⟨.pass, "user whitelist", none⟩
    else .ok ((getKey d.fastLookup n).getD ⟨.safe, "not found in cache", none⟩)

/-- `addToWhitelist` of `src/src/index.ts` (lines 233-243). -/
def addToWhitelist (d : Detector) (word : List Char) : Detector :=
  let n := normalize d.cfg word
  { d with
    userWhitelist := setInsert d.userWhitelist n,
    fastLookup :=
      if d.cfg.useFastLookup then
        setKey d.fastLookup n ⟨.pass, "user added", some word⟩
      else d.fastLookup }

namespace Legacy

/-- Constructor configuration of the secondary engine variant of
`src/src/types.ts` (no fast-lookup or reversible flags). -/
structure Config where
  bannedWords : List (List Char)
  homoglyphMapping : List (Char × Char)
  caseSensitive : Bool
  safeWords : List (List Char)
  defaultWhitelist : List (List Char)
deriving DecidableEq, Repr

/-- The obfuscation character class stripped by the legacy `normalize`. -/
def isObfuscationChar (c : Char) : Bool :=
  ['-', '_', '.', '*', '+', '!', '@', '#', '$', '%', '^', '&', '(', ')'].contains c

/-- The legacy `normalize`: NFD, strip combining marks, strip invisible
characters, strip obfuscation characters, lowercase unless case sensitive,
then map homoglyphs (no digit table, no letter filter). -/
def normalize (cfg : Config) (text : List Char) : List Char :=
  let s1 := (text.flatMap nfdChar).filter (fun c => !isCombining c)
  let s2 := s1.filter (fun c => !isZeroWidth c)
  let s3 := s2.filter (fun c => !isObfuscationChar c)
  let s4 := if cfg.caseSensitive then s3 else s3.map jsToLower
  s4.map (fun c => (lookup? cfg.homoglyphMapping c).getD c)

/-- The legacy whitelist: `new Set([...defaultWhitelist, ...safeWords])`. -/
def whitelistSet (cfg : Config) : List (List Char) :=
  (cfg.defaultWhitelist ++ cfg.safeWords).foldl setInsert []

/-- The legacy normalized whitelist cache. -/
def normalizedWhitelist (cfg : Config) : List (List Char) :=
  (whitelistSet cfg).foldl (fun s w => setInsert s (normalize cfg w)) []

/-- The legacy `initializeNormalizedCaches` banned map: each banned word's
normalized form is inserted only when its length is at least 3. -/
def normalizedBannedWords (cfg : Config) : List (List Char × List Char) :=
  cfg.bannedWords.foldl
    (fun m w =>
      let n := normalize cfg w
      if 3 ≤ n.length then setKey m n w else m) []

/-- One row step of the edit-distance dynamic program: given the previous row
(headed by `dp[i-1][j-1]`), the current cell `dp[i][j-1]` and the remaining
characters of `str2`, produce the cells `dp[i][j..]`. -/
def edAux (c : Char) : List Char → List Nat → Nat → List Nat
  | [], _, _ => []
  | _ :: _, [], _ => []
  | y :: ys, pjm1 :: prest, cur =>
    let v := if c = y then pjm1 else 1 + min (prest.headD 0) (min cur pjm1)
    v :: edAux c ys prest v

/-- The row iteration of the dynamic program over the characters of `str1`. -/
def edLoop (b : List Char) : List Char → List Nat → List Nat
  | [], row => row
  | x :: xs, row => edLoop b xs ((row.headD 0 + 1) :: edAux x b row (row.headD 0 + 1))

/-- `calculateEditDistance` of `src/src/types.ts`: the classic Levenshtein
dynamic program (`dp[i][j]` built from deletion, insertion and substitution at
cost 1), realized row by row; the answer is `dp[m][n]`. -/
def calculateEditDistance (str1 str2 : List Char) : Nat :=
  (edLoop str2 str1 (List.range (str2.length + 1))).getLastD 0

/-- `fuzzyMatch` of `src/src/types.ts` (lines 309-315): length-difference
pre-filter, then edit distance at most 1. -/
def fuzzyMatch (text banned : List Char) : Bool :=
  if 1 < ((text.length : Int) - (banned.length : Int)).natAbs then false
  else calculateEditDistance text banned ≤ 1

/-- The mutable locals of one legacy `detect` call. -/
structure LoopSt where
  «matches» : List (List Char)
  whitelistedSkips : Nat
  exactMatches : Nat
  fuzzyMatches : Nat
  totalChecked : Nat
deriving DecidableEq, Repr

/-- The inner loop of the legacy `detect` over the banned map entries:
exact match, else fuzzy match guarded by not-already-matched. -/
def innerLoop (nw : List Char) : LoopSt → List (List Char × List Char) → LoopSt
  | st, [] => st
  | st, p :: rest =>
    let st1 := { st with totalChecked := st.totalChecked + 1 }
    let st2 :=
      if nw = p.1 then
        { st1 with «matches» := setInsert st1.«matches» p.2,
                   exactMatches := st1.exactMatches + 1 }
      else if !st1.«matches».contains p.2 && fuzzyMatch nw p.1 then
        { st1 with «matches» := setInsert st1.«matches» p.2,
                   fuzzyMatches := st1.fuzzyMatches + 1 }
      else st1
    innerLoop nw st2 rest

/-- The word loop of the legacy `detect`: per word whitelist skip, then the
inner loop against every banned entry. -/
def wordLoop (cfg : Config) : LoopSt → List (List Char) → LoopSt
  | st, [] => st
  | st, w :: rest =>
    let nw := normalize cfg w
    let st2 :=
      if (normalizedWhitelist cfg).contains nw then
        { st with whitelistedSkips := st.whitelistedSkips + 1 }
      else innerLoop nw st (normalizedBannedWords cfg)
    wordLoop cfg st2 rest

/-- The legacy `detect` (`src/src/types.ts`): whole-text whitelist
short-circuit, split on whitespace, then the word loop. -/
def detect (cfg : Config) (text : List Char) : DetectionResult :=
  let normalizedText := normalize cfg text
  if (normalizedWhitelist cfg).contains normalizedText then
    ⟨false, [], normalizedText, ⟨0, 0, 1, 1, none⟩⟩
  else
    let words := jsSplitWS normalizedText
    let st := wordLoop cfg ⟨[], 0, 0, 0, 0⟩ words
    ⟨!st.«matches».isEmpty, st.«matches», normalizedText,
     ⟨st.exactMatches, st.fuzzyMatches, st.totalChecked, st.whitelistedSkips, none⟩⟩

end Legacy

end ProfaneDetect

namespace ProfaneDetect

/-! Helper lemmas about the map and set primitives. -/

theorem char_eq_of_toNat {c d : Char} (h : c.toNat = d.toNat) : c = d := by
  cases c; cases d
  simp only [Char.toNat] at h
  congr 1
  exact UInt32.ext h

theorem getKey_nil {α : Type} (k : List Char) : getKey ([] : List (List Char × α)) k = none := rfl

theorem getKey_cons {α : Type} (p : List Char × α) (m : List (List Char × α)) (k : List Char) :
    getKey (p :: m) k = if p.1 == k then some p.2 else getKey m k := by
  cases hb : (p.1 == k) with
  | true => simp [getKey, List.find?_cons, hb]
  | false => simp [getKey, List.find?_cons, hb]

theorem getKey_setKey_self {α : Type} (m : List (List Char × α)) (k : List Char) (v : α) :
    getKey (setKey m k v) k = some v := by
  induction m with
  | nil => simp [setKey, getKey_cons]
  | cons p rest ih =>
    simp only [setKey]
    by_cases h : (p.1 == k) = true
    · rw [if_pos h, getKey_cons, if_pos h]
    · rw [if_neg h, getKey_cons, if_neg h]
      exact ih

theorem getKey_setKey_ne {α : Type} (m : List (List Char × α)) (k k' : List Char) (v : α)
    (h : k' ≠ k) : getKey (setKey m k' v) k = getKey m k := by
  induction m with
  | nil =>
    have hb : (k' == k) = false := by
      simp
      exact h
    simp [setKey, getKey_cons, hb, getKey_nil]
  | cons p rest ih =>
    simp only [setKey]
    by_cases h1 : (p.1 == k') = true
    · have hp : p.1 = k' := beq_iff_eq.mp h1
      have h2 : (p.1 == k) = false := by
        simp [hp]
        exact h
      rw [if_pos h1, getKey_cons, getKey_cons]
      simp [h2]
    · rw [if_neg h1, getKey_cons, getKey_cons, ih]

theorem mem_setKey {α : Type} {m : List (List Char × α)} {k : List Char} {v : α}
    {p : List Char × α} (h : p ∈ setKey m k v) : p = (k, v) ∨ p ∈ m := by
  induction m with
  | nil =>
    simp [setKey] at h
    exact Or.inl h
  | cons q rest ih =>
    simp only [setKey] at h
    by_cases h1 : (q.1 == k) = true
    · have hq : q.1 = k := beq_iff_eq.mp h1
      simp [h1] at h
      rcases h with h | h
      · exact Or.inl (by simp [h, hq])
      · exact Or.inr (List.mem_cons_of_mem q h)
    · simp [h1] at h
      rcases h with h | h
      · exact Or.inr (by simp [h])
      · rcases ih h with h' | h'
        · exact Or.inl h'
        · exact Or.inr (List.mem_cons_of_mem q h')

theorem mem_setInsert_self (s : List (List Char)) (k : List Char) : k ∈ setInsert s k := by
  unfold setInsert
  split
  · next h => simpa using h
  · simp

theorem mem_setInsert_of_mem {s : List (List Char)} {k x : List Char} (h : x ∈ s) :
    x ∈ setInsert s k := by
  unfold setInsert
  split
  · exact h
  · simp [h]

theorem contains_setInsert_self (s : List (List Char)) (k : List Char) :
    (setInsert s k).contains k = true := by
  simpa using mem_setInsert_self s k

theorem isEmpty_false_of_mem {l : List (List Char)} {x : List Char} (h : x ∈ l) :
    l.isEmpty = false := by
  cases l with
  | nil => cases h
  | cons a t => rfl

/-! Tokenization of whitespace-only input. -/

theorem rawTokens_allWS {s : List Char} (h : ∀ c ∈ s, isJsWhitespace c = true) :
    ∀ inRun : Bool, (jsSplitAux s inRun []).filter (fun t => !t.isEmpty) = [] := by
  induction s with
  | nil => intro inRun; simp [jsSplitAux]
  | cons c rest ih =>
    intro inRun
    have hc : isJsWhitespace c = true := h c (by simp)
    have ih' := ih (fun c hc => h c (List.mem_cons_of_mem _ hc))
    cases inRun with
    | true => simpa [jsSplitAux, hc] using ih' true
    | false => simpa [jsSplitAux, hc] using ih' true

/-! Shared concrete configurations used by witnesses and counterexamples. -/

/-- A small configuration with fast lookup and reversible detection on. -/
def cfgA : Config := ⟨["fuck".data], [], false, true, true, [], []⟩

/-- Same banned list with fast lookup disabled. -/
def cfgB : Config := ⟨["fuck".data], [], false, false, true, [], []⟩

/-- Same banned list with reversible detection disabled. -/
def cfgC : Config := ⟨["fuck".data], [], false, true, false, [], []⟩

/-- C2 (code bug): on the failing input "fuck" (a banned word with no
separator characters), the detector with `useFastLookup=true` reports it while
the otherwise identical detector with `useFastLookup=false` reports nothing,
because the lexicon exact-match branch of `detect` only runs for tokens
containing a non-letter (`hasSep`); disabling the cache therefore changes
classification, contradicting the claimed equivalence. -/
theorem c2_fastlookup_divergence :
    (detect (mkDetector cfgA) "fuck".data).1.found = true ∧
    (detect (mkDetector cfgA) "fuck".data).1.«matches» = ["fuck".data] ∧
    (detect (mkDetector cfgB) "fuck".data).1.found = false ∧
    (detect (mkDetector cfgB) "fuck".data).1.«matches» = [] := by decide

/-- C3: `checkWord` fails with the feature-disabled error exactly when the
detector was constructed with `useFastLookup=false` — for every input word,
before any lookup — and never fails when the flag is true. -/
theorem c3_checkword_disabled_iff (d : Detector) (w : List Char) :
    (d.cfg.useFastLookup = false → checkWord d w = .error "Fast lookup is disabled.") ∧
    (d.cfg.useFastLookup = true → ∃ s, checkWord d w = .ok s) := by
  constructor
  · intro h
    simp [checkWord, h]
  · intro h
    by_cases hw : normalize d.cfg w ∈ d.userWhitelist
    · refine ⟨⟨.pass, "user whitelist", none⟩, ?_⟩
      simp [checkWord, h, hw]
    · refine ⟨(getKey d.fastLookup (normalize d.cfg w)).getD ⟨.safe, "not found in cache", none⟩, ?_⟩
      simp [checkWord, h, hw]

/-- Witness for C3 at concrete detectors: with fast lookup disabled the error
is returned, with it enabled a status is returned. -/
theorem c3_witness :
    checkWord (mkDetector cfgB) "abc".data = .error "Fast lookup is disabled." ∧
    ∃ s, checkWord (mkDetector cfgA) "abc".data = .ok s :=
  ⟨(c3_checkword_disabled_iff (mkDetector cfgB) "abc".data).1 (by decide),
   (c3_checkword_disabled_iff (mkDetector cfgA) "abc".data).2 (by decide)⟩

/-- C4: with fast lookup enabled, after `addToWhitelist w`, `checkWord w`
returns status `pass` (the user-whitelist override), for every word. -/
theorem c4_addToWhitelist_overrides (d : Detector) (w : List Char)
    (h : d.cfg.useFastLookup = true) :
    checkWord (addToWhitelist d w) w = .ok ⟨.pass, "user whitelist", none⟩ := by
  have hmem := mem_setInsert_self d.userWhitelist (normalize d.cfg w)
  simp [checkWord, addToWhitelist, h, hmem]

/-- Witness for C4: the word "fuck" normalizes to a banned lexicon key that the
fresh detector classifies Banned, yet after `addToWhitelist` it checks as
`pass`. -/
theorem c4_witness :
    getKey (mkDetector cfgA).fastLookup (normalize (mkDetector cfgA).cfg "fuck".data) =
      some ⟨.banned, "banned word", some "fuck".data⟩ ∧
    checkWord (addToWhitelist (mkDetector cfgA) "fuck".data) "fuck".data =
      .ok ⟨.pass, "user whitelist", none⟩ :=
  ⟨by decide, c4_addToWhitelist_overrides (mkDetector cfgA) "fuck".data (by decide)⟩

/-- C10: on input that is empty or whitespace-only, `detect` returns found
false, no matches, and zero tokens checked (tokenization drops empty tokens;
the embedding is total, so the call returns normally). -/
theorem c10_whitespace_only_input (d : Detector) (text : List Char)
    (h : ∀ c ∈ text, isJsWhitespace c = true) :
    (detect d text).1.found = false ∧ (detect d text).1.«matches» = [] ∧
    (detect d text).1.metrics.totalChecked = 0 := by
  have ht : rawTokensOf text = [] := rawTokens_allWS h false
  simp [detect, ht]

/-- Witness for C10 at the concrete whitespace-only input consisting of a
space and a tab (and, separately, the theorem also covers the empty string). -/
theorem c10_witness :
    (∀ c ∈ (" \t".data), isJsWhitespace c = true) ∧
    (detect (mkDetector cfgA) " \t".data).1.found = false ∧
    (detect (mkDetector cfgA) " \t".data).1.«matches» = [] ∧
    (detect (mkDetector cfgA) " \t".data).1.metrics.totalChecked = 0 := by
  refine ⟨by decide, ?_⟩
  have := c10_whitespace_only_input (mkDetector cfgA) " \t".data (by decide)
  exact ⟨this.1, this.2.1, this.2.2⟩

/-- C8 (counterexample): the primary engine's `initializeCaches` applies no
minimum-length filter: a detector built over the banned word "as" has the
length-2 key "as" in its normalized banned map. -/
theorem c8_counterexample :
    getKey (mkDetector ⟨["as".data], [], false, true, true, [], []⟩).normalizedBannedMap
      "as".data = some "as".data ∧ ("as".data).length < 3 := by decide

theorem legacy_min_length_aux (cfg : Legacy.Config) :
    ∀ (ws : List (List Char)) (m : List (List Char × List Char)),
      (∀ p ∈ m, 3 ≤ p.1.length) →
      ∀ p ∈ ws.foldl
        (fun m w =>
          let n := Legacy.normalize cfg w
          if 3 ≤ n.length then setKey m n w else m) m,
        3 ≤ p.1.length := by
  intro ws
  induction ws with
  | nil => intro m hm p hp; exact hm p hp
  | cons w rest ih =>
    intro m hm p hp
    simp only [List.foldl_cons] at hp
    refine ih _ ?_ p hp
    intro q hq
    by_cases hn : 3 ≤ (Legacy.normalize cfg w).length
    · rw [if_pos hn] at hq
      rcases mem_setKey hq with h' | h'
      · rw [h']
        exact hn
      · exact hm q h'
    · rw [if_neg hn] at hq
      exact hm q hq

/-- C8 (amended): the minimum-length policy lives in the secondary engine
variant: its `initializeNormalizedCaches` skips banned words whose normalized
form is shorter than 3, so every key of its normalized banned map has length
at least 3. -/
theorem c8_legacy_min_length (cfg : Legacy.Config) (p : List Char × List Char)
    (h : p ∈ Legacy.normalizedBannedWords cfg) : 3 ≤ p.1.length := by
  unfold Legacy.normalizedBannedWords at h
  exact legacy_min_length_aux cfg cfg.bannedWords [] (by simp) p h

/-- A small legacy-engine configuration used by witnesses. -/
def cfgL : Legacy.Config := ⟨["fuck".data], [], false, [], []⟩

/-- Witness for C8: the banned word "fuck" yields the length-4 key of the
legacy normalized banned map. -/
theorem c8_witness :
    ("fuck".data, "fuck".data) ∈ Legacy.normalizedBannedWords cfgL ∧
    3 ≤ ("fuck".data, "fuck".data).1.length :=
  ⟨by decide, c8_legacy_min_length cfgL ("fuck".data, "fuck".data) (by decide)⟩

/-- C7 (counterexample): `normalize` is not idempotent for every caller
supplied homoglyph table: with the table mapping a to b and b to c, one
application of `normalize` sends "a" to "b" and a second application sends it
on to "c". -/
theorem c7_counterexample :
    normalize ⟨[], [('a', 'b'), ('b', 'c')], false, true, true, [], []⟩
        (normalize ⟨[], [('a', 'b'), ('b', 'c')], false, true, true, [], []⟩ "a".data) ≠
      normalize ⟨[], [('a', 'b'), ('b', 'c')], false, true, true, [], []⟩ "a".data := by
  decide

/-- C1 (counterexample): the primary `detect` of `src/src/index.ts` applies no
fuzzy rule: under the default configuration (flags defaulted, spec-modelled
default data), the token "fuvk" is at edit distance exactly 1 from the banned
key "fuck" and passes the length pre-filter, yet `detect` does not flag it. -/
theorem c1_counterexample :
    Legacy.calculateEditDistance "fuvk".data "fuck".data = 1 ∧
    ((("fuvk".data).length : Int) - (("fuck".data).length : Int)).natAbs ≤ 1 ∧
    (detect (mkDetector (resolveOptions {})) "fuvk".data).1.found = false := by decide

/-- C9 (counterexample): two consecutive `detect` calls on the uncached word
"abcd" classify identically, but the first call already reports
`lookupHits = 1` (the counter counts every token routed through the cache,
not cache hits), so it is false that the first call does not increment it
while the second does: both report the same value. -/
theorem c9_counterexample :
    (detect (mkDetector cfgA) "abcd".data).1.metrics.lookupHits = some 1 ∧
    (detect (mkDetector cfgA) "abcd".data).1.metrics.lookupHits ≠ some 0 ∧
    (detect ((detect (mkDetector cfgA) "abcd".data).2) "abcd".data).1.metrics.lookupHits =
      some 1 := by decide


/-- Reading the configuration back from a constructed detector. -/
theorem mkDetector_cfg (cfg : Config) : (mkDetector cfg).cfg = cfg := rfl

/-- C6: for a fresh detector and a single-token input that is not cached, not
whitelisted, and not itself an exact banned hit, if `useReversible=true` and
the letters-only normalized form reversed equals a banned lexicon key then
`detect` reports the forward banned word's surface form and found is true;
with `useReversible=false` the reversal rule is never applied and the same
token is not flagged. -/
theorem c6_reversible_detection (cfg : Config) (w orig : List Char)
    (hTok : rawTokensOf w = [w])
    (hCache : getKey (mkDetector cfg).fastLookup (normalize cfg w) = none)
    (hU : (mkDetector cfg).userWhitelist.contains (normalize cfg w) = false)
    (hN : (mkDetector cfg).normalizedWhitelist.contains (normalize cfg w) = false)
    (hEx : getKey (mkDetector cfg).normalizedBannedMap
        (normalize cfg (w.filter isAsciiLetter)) = none) :
    (cfg.useReversible = true →
      getKey (mkDetector cfg).normalizedBannedMap
          (normalize cfg (w.filter isAsciiLetter)).reverse = some orig →
      (detect (mkDetector cfg) w).1.found = true ∧
        orig ∈ (detect (mkDetector cfg) w).1.«matches») ∧
    (cfg.useReversible = false →
      (detect (mkDetector cfg) w).1.found = false ∧
        (detect (mkDetector cfg) w).1.«matches» = []) := by
  have hU' : normalize cfg w ∉ (mkDetector cfg).userWhitelist := by simpa using hU
  have hN' : normalize cfg w ∉ (mkDetector cfg).normalizedWhitelist := by simpa using hN
  constructor
  · intro hRev hGet
    simp only [detect, hTok, List.foldl_cons, List.foldl_nil]
    cases hFL : cfg.useFastLookup <;>
      simp [processToken, mkDetector_cfg, hFL, hCache, hU', hN', hEx, hRev, hGet, setInsert]
  · intro hRev
    simp only [detect, hTok, List.foldl_cons, List.foldl_nil]
    cases hFL : cfg.useFastLookup <;>
      simp [processToken, mkDetector_cfg, hFL, hCache, hU', hN', hEx, hRev, setInsert]

/-- Witness for C6: the token "kcuf" reverses onto the banned key "fuck": with
reversible detection on it is flagged with the forward surface form; with it
off the same input is not flagged. -/
theorem c6_witness :
    ((detect (mkDetector cfgA) "kcuf".data).1.found = true ∧
      "fuck".data ∈ (detect (mkDetector cfgA) "kcuf".data).1.«matches») ∧
    ((detect (mkDetector cfgC) "kcuf".data).1.found = false ∧
      (detect (mkDetector cfgC) "kcuf".data).1.«matches» = []) :=
  ⟨(c6_reversible_detection cfgA "kcuf".data "fuck".data (by decide) (by decide)
      (by decide) (by decide) (by decide)).1 (by decide) (by decide),
   (c6_reversible_detection cfgC "kcuf".data "fuck".data (by decide) (by decide)
      (by decide) (by decide) (by decide)).2 (by decide)⟩


theorem processToken_fastLookup_stable (d : Detector) (k : List Char) (v : WordStatus)
    (hFL : d.cfg.useFastLookup = true) (st : LoopSt) (raw : List Char)
    (h : getKey st.fastLookup k = some v) :
    getKey (processToken d st raw).fastLookup k = some v := by
  cases hc : getKey st.fastLookup (normalize d.cfg raw) with
  | some cached =>
    simp only [processToken, hFL, if_true]
    simp only [hc]
    split <;> simpa using h
  | none =>
    have hne : normalize d.cfg raw ≠ k := by
      intro he
      rw [he, h] at hc
      exact Option.noConfusion hc
    simp only [processToken, hFL, if_true]
    simp only [hc]
    repeat' split
    all_goals simpa [getKey_setKey_ne _ _ _ _ hne] using h

theorem detect_fastLookup_stable (d : Detector) (k : List Char) (v : WordStatus)
    (hFL : d.cfg.useFastLookup = true) :
    ∀ (tokens : List (List Char)) (st : LoopSt), getKey st.fastLookup k = some v →
      getKey (tokens.foldl (processToken d) st).fastLookup k = some v := by
  intro tokens
  induction tokens with
  | nil => intro st h; exact h
  | cons t rest ih =>
    intro st h
    simp only [List.foldl_cons]
    exact ih _ (processToken_fastLookup_stable d k v hFL st t h)

/-- C5: once the fast-lookup cache of a detector maps a normalized key to a
Banned entry, no `detect` call ever overwrites it; a `detect` or `checkWord`
on a token with that normalized form returns that Banned entry; and the sole
exception is an explicit `addToWhitelist` of that word, which overwrites the
entry to `pass` and takes precedence, while `addToWhitelist` of any other word
leaves the entry intact. -/
theorem c5_banned_memo_stability (d : Detector) (k : List Char) (v : WordStatus)
    (hFL : d.cfg.useFastLookup = true)
    (hGet : getKey d.fastLookup k = some v)
    (hB : v.status = .banned) :
    (∀ text, getKey (detect d text).2.fastLookup k = some v) ∧
    (∀ w, normalize d.cfg w = k → d.userWhitelist.contains k = false →
      checkWord d w = .ok v) ∧
    (∀ w, normalize d.cfg w = k → rawTokensOf w = [w] →
      (detect d w).1.found = true ∧
      (detect d w).1.«matches» = [v.originalWord.getD []]) ∧
    (∀ w, normalize d.cfg w = k →
      getKey (addToWhitelist d w).fastLookup k = some ⟨.pass, "user added", some w⟩ ∧
      checkWord (addToWhitelist d w) w = .ok ⟨.pass, "user whitelist", none⟩) ∧
    (∀ w, normalize d.cfg w ≠ k →
      getKey (addToWhitelist d w).fastLookup k = some v) := by
  refine ⟨?_, ?_, ?_, ?_, ?_⟩
  · intro text
    simp only [detect]
    exact detect_fastLookup_stable d k v hFL (rawTokensOf text) _ hGet
  · intro w hw hUW
    have hUW' : k ∉ d.userWhitelist := by simpa using hUW
    simp [checkWord, hFL, hw, hUW', hGet]
  · intro w hw htk
    simp only [detect, htk, List.foldl_cons, List.foldl_nil]
    simp [processToken, hFL, hw, hGet, hB, setInsert]
  · intro w hw
    constructor
    · rw [← hw]
      simp [addToWhitelist, hFL, getKey_setKey_self]
    · have hmem := mem_setInsert_self d.userWhitelist (normalize d.cfg w)
      simp [checkWord, addToWhitelist, hFL, hmem]
  · intro w hw
    simp only [addToWhitelist, hFL, if_true]
    rw [getKey_setKey_ne _ _ _ _ hw]
    exact hGet

/-- Witness for C5 at a concrete detector whose cache maps "fuck" to a Banned
entry: the entry survives an unrelated detect call and an unrelated
addToWhitelist, checkWord returns it (also for the differently-spelled token
"FUCK" with the same normalized form), detect flags the token, and
addToWhitelist of the word itself overwrites the entry to pass. -/
theorem c5_witness :
    getKey (detect (mkDetector cfgA) "hello world".data).2.fastLookup "fuck".data =
      some ⟨.banned, "banned word", some "fuck".data⟩ ∧
    checkWord (mkDetector cfgA) "FUCK".data =
      .ok ⟨.banned, "banned word", some "fuck".data⟩ ∧
    (detect (mkDetector cfgA) "fuck".data).1.found = true ∧
    getKey (addToWhitelist (mkDetector cfgA) "fuck".data).fastLookup "fuck".data =
      some ⟨.pass, "user added", some "fuck".data⟩ ∧
    getKey (addToWhitelist (mkDetector cfgA) "abcd".data).fastLookup "fuck".data =
      some ⟨.banned, "banned word", some "fuck".data⟩ := by
  have H := c5_banned_memo_stability (mkDetector cfgA) "fuck".data
    ⟨.banned, "banned word", some "fuck".data⟩ (by decide) (by decide) (by decide)
  exact ⟨H.1 "hello world".data,
         H.2.1 "FUCK".data (by decide) (by decide),
         (H.2.2.1 "fuck".data (by decide) (by decide)).1,
         (H.2.2.2.1 "fuck".data (by decide)).1,
         H.2.2.2.2 "abcd".data (by decide)⟩


theorem detect_single_cached (d : Detector) (w : List Char) (s : WordStatus)
    (hFL : d.cfg.useFastLookup = true)
    (hTok : rawTokensOf w = [w])
    (hc : getKey d.fastLookup (normalize d.cfg w) = some s) :
    (detect d w).1.found = decide (s.status = .banned) ∧
    (detect d w).1.«matches» =
      (if s.status = .banned then [s.originalWord.getD []] else []) ∧
    (detect d w).1.metrics.lookupHits = some 1 := by
  simp only [detect, hTok, List.foldl_cons, List.foldl_nil]
  simp only [processToken, hFL, if_true, hc]
  by_cases hb : s.status = .banned
  · simp [hb, setInsert]
  · simp [hb]

theorem detect_single_uncached (d : Detector) (w : List Char)
    (hFL : d.cfg.useFastLookup = true)
    (hTok : rawTokensOf w = [w])
    (hc : getKey d.fastLookup (normalize d.cfg w) = none) :
    ∃ s : WordStatus,
      getKey (detect d w).2.fastLookup (normalize d.cfg w) = some s ∧
      (detect d w).1.found = decide (s.status = .banned) ∧
      (detect d w).1.«matches» =
        (if s.status = .banned then [s.originalWord.getD []] else []) ∧
      (detect d w).1.metrics.lookupHits = some 1 := by
  simp only [detect, hTok, List.foldl_cons, List.foldl_nil]
  simp only [processToken, hFL, if_true, hc]
  cases hu : d.userWhitelist.contains (normalize d.cfg w) with
  | true => simp [hu, getKey_setKey_self]
  | false =>
    cases hn : d.normalizedWhitelist.contains (normalize d.cfg w) with
    | true => simp [hu, hn, getKey_setKey_self]
    | false =>
      cases hsep : w.any (fun c => !isAsciiLetter c) <;>
        cases h2 : getKey d.normalizedBannedMap (normalize d.cfg (List.filter isAsciiLetter w)) <;>
          cases hrv : d.cfg.useReversible <;>
            cases h3 : getKey d.normalizedBannedMap
                (normalize d.cfg (List.filter isAsciiLetter w)).reverse <;>
              simp [hu, hn, hsep, h2, hrv, h3, hc, getKey_setKey_self, setInsert]

/-- C9 (amended): with fast lookup enabled, two consecutive `detect` calls on
one previously uncached single-token input produce identical classification
(same found, same matches); each call reports `lookupHits = 1` because the
counter counts every token routed through the fast-lookup path, so the second
call does not report a larger value than the first. -/
theorem c9_cache_consistency (d : Detector) (w : List Char)
    (hFL : d.cfg.useFastLookup = true)
    (hTok : rawTokensOf w = [w])
    (hUn : getKey d.fastLookup (normalize d.cfg w) = none) :
    (detect d w).1.found = (detect (detect d w).2 w).1.found ∧
    (detect d w).1.«matches» = (detect (detect d w).2 w).1.«matches» ∧
    (detect d w).1.metrics.lookupHits = some 1 ∧
    (detect (detect d w).2 w).1.metrics.lookupHits = some 1 := by
  obtain ⟨s, hs, hf, hm, hl⟩ := detect_single_uncached d w hFL hTok hUn
  have hcfg2 : (detect d w).2.cfg = d.cfg := rfl
  have hFL2 : (detect d w).2.cfg.useFastLookup = true := by rw [hcfg2]; exact hFL
  have hc2 : getKey (detect d w).2.fastLookup (normalize (detect d w).2.cfg w) = some s := by
    rw [hcfg2]
    exact hs
  obtain ⟨hf2, hm2, hl2⟩ := detect_single_cached (detect d w).2 w s hFL2 hTok hc2
  exact ⟨hf.trans hf2.symm, hm.trans hm2.symm, hl, hl2⟩

/-- Witness for C9 at the uncached word "abcd" on a concrete detector. -/
theorem c9_witness :
    (detect (mkDetector cfgA) "abcd".data).1.found =
      (detect (detect (mkDetector cfgA) "abcd".data).2 "abcd".data).1.found ∧
    (detect (mkDetector cfgA) "abcd".data).1.«matches» =
      (detect (detect (mkDetector cfgA) "abcd".data).2 "abcd".data).1.«matches» ∧
    (detect (mkDetector cfgA) "abcd".data).1.metrics.lookupHits = some 1 ∧
    (detect (detect (mkDetector cfgA) "abcd".data).2 "abcd".data).1.metrics.lookupHits =
      some 1 :=
  c9_cache_consistency (mkDetector cfgA) "abcd".data (by decide) (by decide) (by decide)


theorem legacy_inner_mono (nw : List Char) :
    ∀ (es : List (List Char × List Char)) (st : Legacy.LoopSt) (x : List Char),
      x ∈ st.«matches» → x ∈ (Legacy.innerLoop nw st es).«matches» := by
  intro es
  induction es with
  | nil => intro st x h; exact h
  | cons p rest ih =>
    intro st x h
    simp only [Legacy.innerLoop]
    apply ih
    split
    · exact mem_setInsert_of_mem h
    · split
      · exact mem_setInsert_of_mem h
      · exact h

theorem legacy_inner_adds (nw k orig : List Char)
    (hhit : nw = k ∨ Legacy.fuzzyMatch nw k = true) :
    ∀ (es : List (List Char × List Char)) (st : Legacy.LoopSt),
      (k, orig) ∈ es → orig ∈ (Legacy.innerLoop nw st es).«matches» := by
  intro es
  induction es with
  | nil => intro st h; cases h
  | cons p rest ih =>
    intro st hmem
    simp only [Legacy.innerLoop]
    rcases List.mem_cons.mp hmem with he | hr
    · rw [← he]
      by_cases hnw : nw = k
      · rw [if_pos hnw]
        exact legacy_inner_mono nw rest _ orig (mem_setInsert_self _ _)
      · have hfz : Legacy.fuzzyMatch nw k = true := hhit.resolve_left hnw
        rw [if_neg hnw]
        by_cases hcont : st.«matches».contains orig = true
        · have hmem' : orig ∈ st.«matches» := by simpa using hcont
          split
          · exact legacy_inner_mono nw rest _ orig (mem_setInsert_of_mem hmem')
          · exact legacy_inner_mono nw rest _ orig hmem'
        · have hnotmem : orig ∉ st.«matches» := by
            intro hin
            exact hcont (by simpa using hin)
          rw [if_pos (by simp [hfz, hnotmem])]
          exact legacy_inner_mono nw rest _ orig (mem_setInsert_self _ _)
    · exact ih _ hr

theorem legacy_inner_no_add (nw : List Char) :
    ∀ (es : List (List Char × List Char)),
      (∀ p ∈ es, nw ≠ p.1 ∧ Legacy.fuzzyMatch nw p.1 = false) →
      ∀ st : Legacy.LoopSt, (Legacy.innerLoop nw st es).«matches» = st.«matches» := by
  intro es
  induction es with
  | nil => intro _ st; rfl
  | cons p rest ih =>
    intro hall st
    have hp := hall p (by simp)
    simp only [Legacy.innerLoop]
    rw [if_neg hp.1, if_neg (by simp [hp.2])]
    exact ih (fun q hq => hall q (List.mem_cons_of_mem _ hq)) _

theorem legacy_word_mono (cfg : Legacy.Config) :
    ∀ (ws : List (List Char)) (st : Legacy.LoopSt) (x : List Char),
      x ∈ st.«matches» → x ∈ (Legacy.wordLoop cfg st ws).«matches» := by
  intro ws
  induction ws with
  | nil => intro st x h; exact h
  | cons w rest ih =>
    intro st x h
    simp only [Legacy.wordLoop]
    apply ih
    split
    · exact h
    · exact legacy_inner_mono _ _ _ _ h

theorem legacy_word_adds (cfg : Legacy.Config) (w k orig : List Char)
    (hwl : (Legacy.normalizedWhitelist cfg).contains (Legacy.normalize cfg w) = false)
    (hent : (k, orig) ∈ Legacy.normalizedBannedWords cfg)
    (hhit : Legacy.normalize cfg w = k ∨
      Legacy.fuzzyMatch (Legacy.normalize cfg w) k = true) :
    ∀ (ws : List (List Char)) (st : Legacy.LoopSt),
      w ∈ ws → orig ∈ (Legacy.wordLoop cfg st ws).«matches» := by
  intro ws
  induction ws with
  | nil => intro st h; cases h
  | cons w' rest ih =>
    intro st hmem
    simp only [Legacy.wordLoop]
    rcases List.mem_cons.mp hmem with he | hr
    · rw [← he, if_neg (by simpa using hwl)]
      exact legacy_word_mono cfg rest _ orig
        (legacy_inner_adds _ k orig hhit _ _ hent)
    · exact ih _ hr

theorem legacy_word_no_add (cfg : Legacy.Config) :
    ∀ (ws : List (List Char)),
      (∀ w ∈ ws, ∀ p ∈ Legacy.normalizedBannedWords cfg,
        Legacy.normalize cfg w ≠ p.1 ∧
          Legacy.fuzzyMatch (Legacy.normalize cfg w) p.1 = false) →
      ∀ st : Legacy.LoopSt,
        (Legacy.wordLoop cfg st ws).«matches» = st.«matches» := by
  intro ws
  induction ws with
  | nil => intro _ st; rfl
  | cons w rest ih =>
    intro hall st
    simp only [Legacy.wordLoop]
    rw [ih (fun q hq => hall q (List.mem_cons_of_mem _ hq))]
    split
    · rfl
    · exact legacy_inner_no_add _ _ (hall w (by simp)) st

/-- C1 (amended): in the legacy engine variant implementing `fuzzyMatch`, for
an input whose normalized whole text is not whitelisted, every
whitespace-delimited word that is itself not whitelisted and whose normalized
form fuzzy-matches a banned map entry (length pre-filter plus edit distance at
most 1) makes `detect` report that entry's surface form with found true; and
when every word is at edit distance at least 2 from (and unequal to) every
banned key, `detect` reports no matches and found false. -/
theorem c1_legacy_fuzzy_boundary (cfg : Legacy.Config) (text : List Char) :
    (∀ w k orig : List Char,
      (Legacy.normalizedWhitelist cfg).contains (Legacy.normalize cfg text) = false →
      w ∈ jsSplitWS (Legacy.normalize cfg text) →
      (Legacy.normalizedWhitelist cfg).contains (Legacy.normalize cfg w) = false →
      (k, orig) ∈ Legacy.normalizedBannedWords cfg →
      Legacy.fuzzyMatch (Legacy.normalize cfg w) k = true →
      orig ∈ (Legacy.detect cfg text).«matches» ∧
        (Legacy.detect cfg text).found = true) ∧
    ((∀ w ∈ jsSplitWS (Legacy.normalize cfg text),
        ∀ p ∈ Legacy.normalizedBannedWords cfg,
        Legacy.normalize cfg w ≠ p.1 ∧
          Legacy.fuzzyMatch (Legacy.normalize cfg w) p.1 = false) →
      (Legacy.detect cfg text).«matches» = [] ∧
        (Legacy.detect cfg text).found = false) := by
  constructor
  · intro w k orig hNoEarly hw hwl hent hfz
    have hmem : orig ∈ (Legacy.wordLoop cfg ⟨[], 0, 0, 0, 0⟩
        (jsSplitWS (Legacy.normalize cfg text))).«matches» :=
      legacy_word_adds cfg w k orig hwl hent (Or.inr hfz) _ _ hw
    simp only [Legacy.detect]
    rw [if_neg (by simpa using hNoEarly)]
    exact ⟨hmem, by simp [isEmpty_false_of_mem hmem]⟩
  · intro hall
    simp only [Legacy.detect]
    split
    · exact ⟨rfl, rfl⟩
    · next hEarly =>
      have hz : (Legacy.wordLoop cfg ⟨[], 0, 0, 0, 0⟩
          (jsSplitWS (Legacy.normalize cfg text))).«matches» = [] :=
        legacy_word_no_add cfg _ hall _
      simp [hz]


/-- Witness for C1: with banned word "fuck", the legacy detect flags the word
"fuvk" (edit distance 1, pre-filter passes) and reports "fuck", while the word
"fuuvk" (edit distance 2 from every key) yields no matches. -/
theorem c1_witness :
    ("fuck".data ∈ (Legacy.detect cfgL "fuvk".data).«matches» ∧
      (Legacy.detect cfgL "fuvk".data).found = true) ∧
    ((Legacy.detect cfgL "fuuvk".data).«matches» = [] ∧
      (Legacy.detect cfgL "fuuvk".data).found = false) :=
  ⟨(c1_legacy_fuzzy_boundary cfgL "fuvk".data).1 "fuvk".data "fuck".data "fuck".data
      (by decide) (by decide) (by decide) (by decide) (by decide),
   (c1_legacy_fuzzy_boundary cfgL "fuuvk".data).2 (by decide)⟩


/-! Character-class lemmas for the idempotence analysis of `normalize`. -/

theorem nfd_of_letter (c : Char) (h : isAsciiLetter c = true) : nfdChar c = [c] := by
  unfold nfdChar
  split_ifs <;> first | rfl | (subst_vars; exact absurd h (by decide))

theorem combining_of_letter (c : Char) (h : isAsciiLetter c = true) :
    isCombining c = false := by
  simp [isAsciiLetter, isUpperAscii, isLowerAscii] at h
  simp [isCombining]
  omega

theorem zeroWidth_of_letter (c : Char) (h : isAsciiLetter c = true) :
    isZeroWidth c = false := by
  simp [isAsciiLetter, isUpperAscii, isLowerAscii] at h
  simp [isZeroWidth]
  omega

theorem digit_of_letter (c : Char) (h : isAsciiLetter c = true) : digitMap c = none := by
  unfold digitMap
  split_ifs <;> first | rfl | (subst_vars; exact absurd h (by decide))

theorem digit_some_lower (c y : Char) (h : digitMap c = some y) :
    isLowerAscii y = true := by
  unfold digitMap at h
  split_ifs at h <;> cases h <;> decide

theorem lookup_none_of_letter (hm : List (Char × Char))
    (H1 : ∀ p ∈ hm, isAsciiLetter p.1 = false) (c : Char)
    (h : isAsciiLetter c = true) : lookup? hm c = none := by
  induction hm with
  | nil => rfl
  | cons p rest ih =>
    have hne : (p.1 == c) = false := by
      cases hb : p.1 == c
      · rfl
      · have hp := H1 p (by simp)
        rw [beq_iff_eq.mp hb] at hp
        rw [hp] at h
        cases h
    simp only [lookup?, List.find?_cons, hne]
    exact ih (fun q hq => H1 q (List.mem_cons_of_mem _ hq))

theorem lookup_mem {hm : List (Char × Char)} {c v : Char}
    (h : lookup? hm c = some v) : ∃ p ∈ hm, p.2 = v := by
  induction hm with
  | nil => cases h
  | cons p rest ih =>
    cases hb : p.1 == c with
    | true =>
      simp only [lookup?, List.find?_cons, hb] at h
      exact ⟨p, by simp, by simpa using h⟩
    | false =>
      simp only [lookup?, List.find?_cons, hb] at h
      obtain ⟨q, hq, hqv⟩ := ih h
      exact ⟨q, List.mem_cons_of_mem _ hq, hqv⟩

theorem asciiLowerOf_not_upper (c : Char) : isUpperAscii (asciiLowerOf c) = false := by
  unfold asciiLowerOf
  cases hlk : lookup? asciiLowerPairs c with
  | none => decide
  | some v =>
    obtain ⟨p, hp, hv⟩ := lookup_mem hlk
    have hall : ∀ q ∈ asciiLowerPairs, isUpperAscii q.2 = false := by decide
    rw [← hv]
    simpa using hall p hp

theorem asciiLowerOf_ne_special (c : Char) :
    asciiLowerOf c ≠ 'É' ∧ asciiLowerOf c ≠ 'Ñ' := by
  unfold asciiLowerOf
  cases hlk : lookup? asciiLowerPairs c with
  | none => exact (by decide)
  | some v =>
    obtain ⟨p, hp, hv⟩ := lookup_mem hlk
    have hall : ∀ q ∈ asciiLowerPairs, q.2 ≠ 'É' ∧ q.2 ≠ 'Ñ' := by decide
    rw [← hv]
    simpa using hall p hp

theorem jsToLower_not_upper (c : Char) : isUpperAscii (jsToLower c) = false := by
  unfold jsToLower
  split_ifs with h1 h2 h3
  · exact asciiLowerOf_not_upper c
  · decide
  · decide
  · simpa using h1

theorem jsToLower_ne_special (c : Char) :
    jsToLower c ≠ 'É' ∧ jsToLower c ≠ 'Ñ' := by
  unfold jsToLower
  split_ifs with h1 h2 h3
  · exact asciiLowerOf_ne_special c
  · exact (by decide)
  · exact (by decide)
  · exact ⟨h2, h3⟩

theorem jsToLower_lower_fix (c : Char) (h : isLowerAscii c = true) : jsToLower c = c := by
  unfold jsToLower
  split_ifs with h1 h2 h3
  · exfalso
    simp [isUpperAscii] at h1
    simp [isLowerAscii] at h
    omega
  · subst h2
    exact absurd h (by decide)
  · subst h3
    exact absurd h (by decide)
  · rfl

theorem nfd_not_upper (c : Char) (h : isUpperAscii c = false) (h1 : c ≠ 'É')
    (h2 : c ≠ 'Ñ') : ∀ d ∈ nfdChar c, isUpperAscii d = false := by
  intro d hd
  by_cases g1 : c = 'é'
  · subst g1
    have he : nfdChar 'é' = ['e', '́'] := rfl
    rw [he] at hd
    rcases List.mem_cons.mp hd with rfl | hd
    · decide
    rcases List.mem_cons.mp hd with rfl | hd
    · decide
    cases hd
  · by_cases g3 : c = 'ñ'
    · subst g3
      have he : nfdChar 'ñ' = ['n', '̃'] := rfl
      rw [he] at hd
      rcases List.mem_cons.mp hd with rfl | hd
      · decide
      rcases List.mem_cons.mp hd with rfl | hd
      · decide
      cases hd
    · by_cases g5 : c = 'ü'
      · subst g5
        have he : nfdChar 'ü' = ['u', '̈'] := rfl
        rw [he] at hd
        rcases List.mem_cons.mp hd with rfl | hd
        · decide
        rcases List.mem_cons.mp hd with rfl | hd
        · decide
        cases hd
      · have he : nfdChar c = [c] := by
          unfold nfdChar
          rw [if_neg g1, if_neg h1, if_neg g3, if_neg h2, if_neg g5]
        rw [he] at hd
        rcases List.mem_cons.mp hd with rfl | hd
        · exact h
        · cases hd

theorem letter_lower_of_not_upper (c : Char) (h : isAsciiLetter c = true)
    (hu : isUpperAscii c = false) : isLowerAscii c = true := by
  rcases Bool.or_eq_true_iff.mp (by simpa [isAsciiLetter] using h) with h' | h'
  · rw [h'] at hu
    cases hu
  · exact h'


theorem normChar_some_letter {hm : List (Char × Char)} {ch c : Char}
    (h : normChar hm ch = some c) : isAsciiLetter c = true := by
  simp only [normChar] at h
  by_cases hl : isAsciiLetter
      ((digitMap ((lookup? hm ch).getD ch)).getD ((lookup? hm ch).getD ch)) = true
  · rw [if_pos hl] at h
    cases h
    exact hl
  · rw [if_neg hl] at h
    cases h

theorem normChar_val {hm : List (Char × Char)} {ch c : Char}
    (h : normChar hm ch = some c) :
    c = (digitMap ((lookup? hm ch).getD ch)).getD ((lookup? hm ch).getD ch) := by
  simp only [normChar] at h
  by_cases hl : isAsciiLetter
      ((digitMap ((lookup? hm ch).getD ch)).getD ((lookup? hm ch).getD ch)) = true
  · rw [if_pos hl] at h
    cases h
    rfl
  · rw [if_neg hl] at h
    cases h

theorem normChar_lower (hm : List (Char × Char))
    (H2' : ∀ p ∈ hm, isUpperAscii p.2 = false) (ch c : Char)
    (hup : isUpperAscii ch = false) (h : normChar hm ch = some c) :
    isLowerAscii c = true := by
  have hl := normChar_some_letter h
  have hv := normChar_val h
  cases hlk : lookup? hm ch with
  | none =>
    rw [hlk] at hv
    simp only [Option.getD_none] at hv
    cases hd : digitMap ch with
    | none =>
      rw [hd] at hv
      simp only [Option.getD_none] at hv
      rw [hv] at hl ⊢
      exact letter_lower_of_not_upper ch hl hup
    | some y =>
      rw [hd] at hv
      simp only [Option.getD_some] at hv
      rw [hv]
      exact digit_some_lower ch y hd
  | some v =>
    have hvup : isUpperAscii v = false := by
      obtain ⟨p, hp, hpv⟩ := lookup_mem hlk
      rw [← hpv]
      exact H2' p hp
    rw [hlk] at hv
    simp only [Option.getD_some] at hv
    cases hd : digitMap v with
    | none =>
      rw [hd] at hv
      simp only [Option.getD_none] at hv
      rw [hv] at hl ⊢
      exact letter_lower_of_not_upper v hl hvup
    | some y =>
      rw [hd] at hv
      simp only [Option.getD_some] at hv
      rw [hv]
      exact digit_some_lower v y hd

theorem normChar_letter_fix (hm : List (Char × Char))
    (H1 : ∀ p ∈ hm, isAsciiLetter p.1 = false) (x : Char)
    (hx : isAsciiLetter x = true) : normChar hm x = some x := by
  simp only [normChar]
  rw [lookup_none_of_letter hm H1 x hx]
  simp only [Option.getD_none]
  rw [digit_of_letter x hx]
  simp only [Option.getD_none]
  rw [if_pos hx]

theorem list_map_id {f : Char → Char} :
    ∀ l : List Char, (∀ x ∈ l, f x = x) → l.map f = l := by
  intro l
  induction l with
  | nil => intro _; rfl
  | cons c t ih =>
    intro h
    simp only [List.map_cons]
    rw [h c (by simp), ih (fun x hx => h x (List.mem_cons_of_mem _ hx))]

theorem list_flatMap_id {f : Char → List Char} :
    ∀ l : List Char, (∀ x ∈ l, f x = [x]) → l.flatMap f = l := by
  intro l
  induction l with
  | nil => intro _; rfl
  | cons c t ih =>
    intro h
    simp only [List.flatMap_cons]
    rw [h c (by simp), ih (fun x hx => h x (List.mem_cons_of_mem _ hx))]
    rfl

theorem list_filter_id {p : Char → Bool} :
    ∀ l : List Char, (∀ x ∈ l, p x = true) → l.filter p = l := by
  intro l
  induction l with
  | nil => intro _; rfl
  | cons c t ih =>
    intro h
    rw [List.filter_cons, if_pos (h c (by simp)),
      ih (fun x hx => h x (List.mem_cons_of_mem _ hx))]

theorem list_filterMap_id {f : Char → Option Char} :
    ∀ l : List Char, (∀ x ∈ l, f x = some x) → l.filterMap f = l := by
  intro l
  induction l with
  | nil => intro _; rfl
  | cons c t ih =>
    intro h
    rw [List.filterMap_cons, h c (by simp),
      ih (fun x hx => h x (List.mem_cons_of_mem _ hx))]

theorem normalize_mem_spec (cfg : Config)
    (H2 : cfg.caseSensitive = false →
      ∀ p ∈ cfg.homoglyphMapping, isUpperAscii p.2 = false) (text : List Char) :
    ∀ c ∈ normalize cfg text,
      isAsciiLetter c = true ∧ (cfg.caseSensitive = false → isLowerAscii c = true) := by
  intro c hc
  simp only [normalize] at hc
  rw [List.mem_filterMap] at hc
  obtain ⟨ch, hch, hf⟩ := hc
  refine ⟨normChar_some_letter hf, ?_⟩
  intro hcs
  rw [List.mem_filter] at hch
  obtain ⟨hch, _⟩ := hch
  rw [List.mem_filter] at hch
  obtain ⟨hch, _⟩ := hch
  rw [if_neg (by simp [hcs])] at hch
  rw [List.mem_flatMap] at hch
  obtain ⟨a, ha, hcha⟩ := hch
  rw [List.mem_map] at ha
  obtain ⟨b, _, rfl⟩ := ha
  have hup : isUpperAscii ch = false :=
    nfd_not_upper (jsToLower b) (jsToLower_not_upper b) (jsToLower_ne_special b).1
      (jsToLower_ne_special b).2 ch hcha
  exact normChar_lower cfg.homoglyphMapping (H2 hcs) ch c hup hf

theorem normalize_fix (cfg : Config)
    (H1 : ∀ p ∈ cfg.homoglyphMapping, isAsciiLetter p.1 = false) (l : List Char)
    (hall : ∀ c ∈ l,
      isAsciiLetter c = true ∧ (cfg.caseSensitive = false → isLowerAscii c = true)) :
    normalize cfg l = l := by
  have hs1 : (if cfg.caseSensitive then l else l.map jsToLower) = l := by
    cases hcs : cfg.caseSensitive
    · rw [if_neg (by simp)]
      exact list_map_id l (fun x hx => jsToLower_lower_fix x ((hall x hx).2 hcs))
    · simp
  simp only [normalize]
  rw [hs1]
  rw [list_flatMap_id l (fun x hx => nfd_of_letter x (hall x hx).1)]
  rw [list_filter_id l (fun x hx => by simp [combining_of_letter x (hall x hx).1])]
  rw [list_filter_id l (fun x hx => by simp [zeroWidth_of_letter x (hall x hx).1])]
  exact list_filterMap_id l
    (fun x hx => normChar_letter_fix cfg.homoglyphMapping H1 x (hall x hx).1)

/-- C7 (amended): `normalize` is idempotent for every input string whenever
the homoglyph table remaps no ASCII letter and, in case-insensitive mode,
maps no character to an uppercase ASCII letter; a caller-supplied table
violating this (e.g. a chained mapping) breaks idempotence. -/
theorem c7_normalize_idempotent (cfg : Config)
    (H1 : ∀ p ∈ cfg.homoglyphMapping, isAsciiLetter p.1 = false)
    (H2 : cfg.caseSensitive = false →
      ∀ p ∈ cfg.homoglyphMapping, isUpperAscii p.2 = false) (text : List Char) :
    normalize cfg (normalize cfg text) = normalize cfg text :=
  normalize_fix cfg H1 (normalize cfg text) (normalize_mem_spec cfg H2 text)

/-- Witness for C7 on the default configuration (whose modelled homoglyph
table satisfies both conditions) at a concrete mixed input. -/
theorem c7_witness :
    (∀ p ∈ (resolveOptions {}).homoglyphMapping, isAsciiLetter p.1 = false) ∧
    ((resolveOptions {}).caseSensitive = false →
      ∀ p ∈ (resolveOptions {}).homoglyphMapping, isUpperAscii p.2 = false) ∧
    normalize (resolveOptions {}) (normalize (resolveOptions {}) "AÉb3 ｕx!".data) =
      normalize (resolveOptions {}) "AÉb3 ｕx!".data :=
  ⟨by decide, by decide,
   c7_normalize_idempotent (resolveOptions {}) (by decide) (by decide) "AÉb3 ｕx!".data⟩

end ProfaneDetect
